import Mathlib

/-!
Shallow embedding of `validate_model.py` (South Sudan early-warning model
validation script).

Conventions of the embedding:

* Real-valued columns of the dataframe are modelled as `ℚ`; a missing entry
  (`NaN`) is modelled as `none` in `Option ℚ`.
* The binary outcome column `conflict_occurred` (0/1 integers in the CSV,
  with the spec invariant "outcome flag ∈ {0,1}") is modelled as `Bool`
  (`true` = 1).
* A dataframe is a `List Row` (ordered collection of sample rows).
* Fallible library calls (`sklearn.metrics.roc_auc_score`, which raises
  `ValueError` on NaN input or on a single-class label vector) are modelled
  with `Except String`.
* NumPy float results that can be `nan` (`0/0` in the unguarded summary
  metrics) are modelled as `Option ℚ` with `none` for `nan`.
-/

namespace SSEWS

/- The Batteries rational-number operations are `@[irreducible]`, which only
affects elaboration; making them semireducible in this file lets `decide`
and `rfl` evaluate the embedding on concrete datasets.  The kernel is
unaffected either way. -/
attribute [local semireducible] Rat.add Rat.mul Rat.sub Rat.inv Rat.ofScientific

/-- One row of `validation_dataset_full.csv`: the composite score `ewi`,
the six named component columns, the binary outcome flag, and the
(possibly missing) priority class code. -/
structure Row where
  ewi : Option ℚ
  cattle_convergence : Option ℚ
  conflict_risk : Option ℚ
  resource_stress : Option ℚ
  access_constraints : Option ℚ
  water_score : Option ℚ
  forage_score : Option ℚ
  conflict_occurred : Bool
  priority_class : Option ℚ
deriving DecidableEq

/-- A row with every value missing and outcome 0; used only as the default
element for `List.getD`. -/
def dummyRow : Row :=
  ⟨none, none, none, none, none, none, none, false, none⟩

/-- Convenience row builder for datasets whose component columns are all
missing (the component columns are irrelevant to most claims). -/
def mkRow (ewi : Option ℚ) (conflict : Bool) (pc : Option ℚ) : Row :=
  ⟨ewi, none, none, none, none, none, none, conflict, pc⟩

/-! ### Loader/Imputer (lines 31-45 of `validate_model.py`) -/

/-- The list `component_cols_for_ewi` of lines 32-39. -/
def component_cols_for_ewi : List String :=
  ["cattle_convergence", "conflict_risk", "resource_stress",
   "access_constraints", "water_score", "forage_score"]

/-- Column access by name, for the six component columns. -/
def colValue (r : Row) (c : String) : Option ℚ :=
  if c = "cattle_convergence" then r.cattle_convergence
  else if c = "conflict_risk" then r.conflict_risk
  else if c = "resource_stress" then r.resource_stress
  else if c = "access_constraints" then r.access_constraints
  else if c = "water_score" then r.water_score
  else if c = "forage_score" then r.forage_score
  else none

/-- The values of the six component columns of a row, in the order of
`component_cols_for_ewi` (the column selection `df[component_cols_for_ewi]`). -/
def componentValues (r : Row) : List (Option ℚ) :=
  [r.cattle_convergence, r.conflict_risk, r.resource_stress,
   r.access_constraints, r.water_score, r.forage_score]

/-- The non-missing component values of a row. -/
def presentComponents (r : Row) : List ℚ :=
  (componentValues r).filterMap id

/-- Row-wise `df[component_cols_for_ewi].mean(axis=1, skipna=True)`:
the mean of the present components, `NaN` (`none`) if all six are missing. -/
def rowComponentMean (r : Row) : Option ℚ :=
  if presentComponents r = [] then none
  else some ((presentComponents r).sum / (presentComponents r).length)

/-- `df['ewi'].fillna(df[component_cols_for_ewi].mean(axis=1, skipna=True))`
applied to one row: a present `ewi` is kept, a missing one is replaced by
the row-wise component mean (which may itself be missing). -/
def fillnaEwi (r : Row) : Row :=
  match r.ewi with
  | some _ => r
  | none => { r with ewi := rowComponentMean r }

/-- Lines 40-44: the fill is performed only when
`missing_ewi_before = df['ewi'].isna().sum()` is positive. -/
def imputeDF (df : List Row) : List Row :=
  if 0 < df.countP (fun r => r.ewi.isNone) then df.map fillnaEwi else df

/-! ### ROC curve (`sklearn.metrics.roc_curve`, called at lines 97 and 160)

`roc_curve` sorts the scores in descending order
(`np.argsort(y_score, kind="mergesort")[::-1]`), samples cumulative
true-positive/false-positive counts at the last index of each block of equal
scores plus the final index (`_binary_clf_curve`), drops collinear interior
points (`drop_intermediate=True`, keeping a point exactly when one of the
second differences of `fps`/`tps` is nonzero, first and last always kept),
prepends the anchor point `(0, 0)` with threshold `thresholds[0] + 1`, and
normalises by the final counts.

Modelling notes: the descending sort is embedded as Mathlib's
`insertionSort` by the "greater-or-equal score" relation; the relative order
of pairs with equal scores differs from NumPy's stable mergesort, but the
emitted curve only samples cumulative counts at the ends of equal-score
blocks, which are invariant under permutations inside a block.  The anchor
threshold is `max + 1` as in the scikit-learn line
`np.r_[thresholds[0] + 1, thresholds]` (newer releases use `+inf`; both
exceed every score, and nothing below depends on the choice).  On the empty
input, on which scikit-learn raises before reaching this code, the embedding
returns a harmless one-point curve. -/

/-- Descending-score order on (label, score) pairs. -/
def scoreGE (a b : Bool × ℚ) : Prop := b.2 ≤ a.2

instance : DecidableRel scoreGE := fun a b => (inferInstance : Decidable (b.2 ≤ a.2))

instance : IsTotal (Bool × ℚ) scoreGE := ⟨fun a b => le_total b.2 a.2⟩

instance : IsTrans (Bool × ℚ) scoreGE :=
  ⟨fun _ _ _ h1 h2 => le_trans h2 h1⟩

/-- Sort the (label, score) pairs by descending score:
`np.argsort(y_score, kind="mergesort")[::-1]`. -/
def sortDescByScore (pts : List (Bool × ℚ)) : List (Bool × ℚ) :=
  pts.insertionSort scoreGE

/-- Walk the descending-sorted pairs accumulating false-positive and
true-positive counts, emitting a `(fps, tps, threshold)` triple at the last
index of every equal-score block and at the final index
(`_binary_clf_curve`'s `threshold_idxs`). -/
def clfPoints : ℕ → ℕ → List (Bool × ℚ) → List (ℕ × ℕ × ℚ)
  | _, _, [] => []
  | fp, tp, (b, s) :: rest =>
    let fp' := if b then fp else fp + 1
    let tp' := if b then tp + 1 else tp
    match rest with
    | [] => [(fp', tp', s)]
    | (_, s2) :: _ =>
      if s2 = s then clfPoints fp' tp' rest
      else (fp', tp', s) :: clfPoints fp' tp' rest

/-- Keep a middle curve point exactly when the second difference of `fps`
or of `tps` at it (taken on the original, undropped arrays) is nonzero;
the final point is always kept. -/
def keepMid (a b c : ℕ × ℕ × ℚ) : Bool :=
  a.1 + c.1 ≠ 2 * b.1 ∨ a.2.1 + c.2.1 ≠ 2 * b.2.1

/-- Recursion for `drop_intermediate`: `prev` is the original predecessor of
the head of the list. -/
def dropMid : (ℕ × ℕ × ℚ) → List (ℕ × ℕ × ℚ) → List (ℕ × ℕ × ℚ)
  | _, [] => []
  | _, [c] => [c]
  | prev, cur :: next :: rest =>
    (if keepMid prev cur next then [cur] else []) ++ dropMid cur (next :: rest)

/-- `drop_intermediate=True` of `roc_curve`: applied only when the curve has
more than two points; the first and last points are always kept. -/
def dropIntermediate (pts : List (ℕ × ℕ × ℚ)) : List (ℕ × ℕ × ℚ) :=
  if 2 < pts.length then
    match pts with
    | [] => []
    | p0 :: rest => p0 :: dropMid p0 rest
  else pts

/-- The `(fps, tps, thresholds)` triples of `roc_curve` before the anchor
point is prepended and before normalisation. -/
def rawRoc (pts : List (Bool × ℚ)) : List (ℕ × ℕ × ℚ) :=
  dropIntermediate (clfPoints 0 0 (sortDescByScore pts))

/-- The output of `sklearn.metrics.roc_curve`: false-positive rates,
true-positive rates and thresholds, in the curve's native ordering
(thresholds descending). -/
structure RocCurve where
  fpr : List ℚ
  tpr : List ℚ
  thresholds : List ℚ
deriving DecidableEq

/-- `roc_curve(y_true, y_score)` on clean (non-NaN) scores.  The divisions
`fps / fps[-1]` and `tps / tps[-1]` are exact rational divisions; when a
class is absent the denominator is zero and scikit-learn would produce `nan`
with a warning, a situation unreachable in the script because
`roc_auc_score` has already raised on single-class input. -/
def rocCurve (pts : List (Bool × ℚ)) : RocCurve :=
  { fpr := (0 :: (rawRoc pts).map (fun q => q.1)).map
      (fun (x : ℕ) => (x : ℚ) / (((rawRoc pts).getLastD (0, 0, 0)).1 : ℚ))
    tpr := (0 :: (rawRoc pts).map (fun q => q.2.1)).map
      (fun (x : ℕ) => (x : ℚ) / (((rawRoc pts).getLastD (0, 0, 0)).2.1 : ℚ))
    thresholds := (((rawRoc pts).headD (0, 0, 0)).2.2 + 1)
      :: (rawRoc pts).map (fun q => q.2.2) }

/-- `np.trapz(ys, xs)`: trapezoidal integration of `ys` against `xs`. -/
def trapz : List ℚ → List ℚ → ℚ
  | y1 :: y2 :: ys, x1 :: x2 :: xs => (x2 - x1) * (y1 + y2) / 2 + trapz (y2 :: ys) (x2 :: xs)
  | _, _ => 0

/-- `auc(fpr, tpr)` as used by `roc_auc_score`. -/
def aucOfCurve (c : RocCurve) : ℚ := trapz c.tpr c.fpr

/-- The (label, score) pairs with a present score. -/
def presentPairs (data : List (Bool × Option ℚ)) : List (Bool × ℚ) :=
  data.filterMap (fun p => p.2.map (fun v => (p.1, v)))

/-- `sklearn.metrics.roc_auc_score(y_true, y_score)` (line 60).  The input
is the (label, possibly-missing score) column pair.  scikit-learn's input
validation raises `ValueError` when the score column contains NaN, and
raises `ValueError` when the label column is single-class; otherwise it
returns the trapezoidal area under the ROC curve. -/
def rocAucScore (data : List (Bool × Option ℚ)) : Except String ℚ :=
  if data.any (fun p => p.2.isNone) then
    Except.error "Input contains NaN"
  else if (presentPairs data).all (fun p => p.1) || (presentPairs data).all (fun p => !p.1) then
    Except.error "Only one class present in y_true. ROC AUC score is not defined in that case."
  else
    Except.ok (aucOfCurve (rocCurve (presentPairs data)))

/-- The `(conflict_occurred, ewi)` column pair fed to `roc_auc_score`. -/
def scoreData (df : List Row) : List (Bool × Option ℚ) :=
  df.map (fun r => (r.conflict_occurred, r.ewi))

/-- The `(conflict_occurred, ewi)` pairs of the rows whose `ewi` is present.
At line 97 the script has already survived line 60, so no score is missing
and this is exactly the two columns. -/
def cleanPairs (df : List Row) : List (Bool × ℚ) :=
  presentPairs (scoreData df)

/-! ### Optimal threshold (lines 96-99) -/

/-- `np.argmax`: the first index at which a list of rationals attains its
maximum (0 on the empty list, as a total-function convention). -/
def argmaxIdx : List ℚ → ℕ
  | [] => 0
  | [_] => 0
  | x :: y :: ys =>
    if (y :: ys).getD (argmaxIdx (y :: ys)) 0 > x then argmaxIdx (y :: ys) + 1 else 0

/-- The Youden statistic list `tpr - fpr` of a curve. -/
def jList (pts : List (Bool × ℚ)) : List ℚ :=
  List.zipWith (fun a b => a - b) (rocCurve pts).tpr (rocCurve pts).fpr

/-- `optimal_idx = np.argmax(tpr - fpr)` (line 98). -/
def optimalIdx (pts : List (Bool × ℚ)) : ℕ := argmaxIdx (jList pts)

/-- `optimal_threshold = thresholds[optimal_idx]` (line 99). -/
def optimalThreshold (pts : List (Bool × ℚ)) : ℚ :=
  (rocCurve pts).thresholds.getD (optimalIdx pts) 0

/-! ### Threshold sweep and confusion counts (lines 79-89, 211-216) -/

/-- The fixed threshold list of line 79. -/
def sweepThresholds : List ℚ := [0.4, 0.5, 0.6, 0.7]

/-- `(df['ewi'] >= threshold)` for one row: a present score is classified
positive exactly when it is at least the threshold; a missing score compares
`False` in pandas and is classified negative. -/
def predPos (r : Row) (t : ℚ) : Bool :=
  match r.ewi with
  | some v => decide (t ≤ v)
  | none => false

/-- True positives of `confusion_matrix(df['conflict_occurred'], pred)`. -/
def countTP (df : List Row) (t : ℚ) : ℕ :=
  df.countP (fun r => r.conflict_occurred && predPos r t)

/-- False positives. -/
def countFP (df : List Row) (t : ℚ) : ℕ :=
  df.countP (fun r => !r.conflict_occurred && predPos r t)

/-- False negatives. -/
def countFN (df : List Row) (t : ℚ) : ℕ :=
  df.countP (fun r => r.conflict_occurred && !predPos r t)

/-- True negatives. -/
def countTN (df : List Row) (t : ℚ) : ℕ :=
  df.countP (fun r => !r.conflict_occurred && !predPos r t)

/-- Line 84: `precision = tp / (tp + fp) if (tp + fp) > 0 else 0`. -/
def sweepPrecision (df : List Row) (t : ℚ) : ℚ :=
  let tp := countTP df t
  let fp := countFP df t
  if 0 < tp + fp then (tp : ℚ) / ((tp : ℚ) + (fp : ℚ)) else 0

/-- Line 85: `recall = tp / (tp + fn) if (tp + fn) > 0 else 0`. -/
def sweepRecall (df : List Row) (t : ℚ) : ℚ :=
  let tp := countTP df t
  let fn := countFN df t
  if 0 < tp + fn then (tp : ℚ) / ((tp : ℚ) + (fn : ℚ)) else 0

/-- Line 86: `f1 = 2 * (precision * recall) / (precision + recall)
if (precision + recall) > 0 else 0`. -/
def sweepF1 (df : List Row) (t : ℚ) : ℚ :=
  let p := sweepPrecision df t
  let r := sweepRecall df t
  if 0 < p + r then 2 * (p * r) / (p + r) else 0

/-- Line 87: `accuracy = (tp + tn) / (tp + tn + fp + fn)` (no zero guard;
the denominator is the row count, positive on every dataset the script is
run on). -/
def sweepAccuracy (df : List Row) (t : ℚ) : ℚ :=
  let tp := countTP df t
  let tn := countTN df t
  let fp := countFP df t
  let fn := countFN df t
  ((tp + tn : ℕ) : ℚ) / ((tp + tn + fp + fn : ℕ) : ℚ)

/-- NumPy scalar division: `0/0` produces `nan` (modelled as `none`) with a
runtime warning, not an exception. -/
def pyDiv (a b : ℚ) : Option ℚ :=
  if b = 0 then none else some (a / b)

/-- Line 214: `precision = tp / (tp + fp)` — the summary recomputation at
the optimal threshold, with no zero guard. -/
def summaryPrecision (df : List Row) (t : ℚ) : Option ℚ :=
  pyDiv (countTP df t) ((countTP df t : ℚ) + (countFP df t : ℚ))

/-- Line 215: `recall = tp / (tp + fn)` — no zero guard. -/
def summaryRecall (df : List Row) (t : ℚ) : Option ℚ :=
  pyDiv (countTP df t) ((countTP df t : ℚ) + (countFN df t : ℚ))

/-- Line 216: `f1 = 2 * (precision * recall) / (precision + recall)` — no
zero guard; `nan` operands propagate. -/
def summaryF1 (df : List Row) (t : ℚ) : Option ℚ := do
  let p ← summaryPrecision df t
  let r ← summaryRecall df t
  pyDiv (2 * (p * r)) (p + r)

/-! ### Final verdict (lines 239-251) -/

/-- The recommendation branch: `if auc > 0.75 and recall > 0.7: DEPLOY
elif auc > 0.65: PILOT else: IMPROVE`. -/
def finalVerdict (auc rcl : ℚ) : String :=
  if auc > 0.75 ∧ rcl > 0.7 then "DEPLOY"
  else if auc > 0.65 then "PILOT"
  else "IMPROVE"

/-! ### Component evaluation (lines 110-125) -/

/-- The `components` dict of lines 110-116 as an association list
(display name, column name), in insertion order. -/
def components : List (String × String) :=
  [("Cattle Convergence", "cattle_convergence"),
   ("Conflict Risk", "conflict_risk"),
   ("Resource Stress", "resource_stress"),
   ("Water Score", "water_score"),
   ("Forage Score", "forage_score")]

/-- `Series.mean()`: mean of the present values, `NaN` if none. -/
def seriesMean (xs : List (Option ℚ)) : Option ℚ :=
  let p := xs.filterMap id
  if p = [] then none else some (p.sum / p.length)

/-- The per-component loop of lines 121-125: for every entry of
`components`, the column name, its AUC against the outcome flags, and its
mean over conflict and over non-conflict rows. -/
def componentReport (df : List Row) :
    List (String × Except String ℚ × Option ℚ × Option ℚ) :=
  components.map (fun nc =>
    (nc.2,
     rocAucScore (df.map (fun r => (r.conflict_occurred, colValue r nc.2))),
     seriesMean ((df.filter (fun r => r.conflict_occurred)).map (fun r => colValue r nc.2)),
     seriesMean ((df.filter (fun r => !r.conflict_occurred)).map (fun r => colValue r nc.2))))

/-! ### Priority zone validation (lines 135-147)

The loop is `for priority in sorted(df['priority_class'].unique())` with
`continue` on `priority == 0 or np.isnan(priority)`.

* `Series.unique()` returns the distinct values in order of first
  appearance, with at most one `NaN`.
* Python's built-in `sorted` is a comparison sort (Timsort) driven solely
  by `<`, under which every comparison against `NaN` is `False`.  It is
  embedded as a stable binary-insertion sort with the same comparison —
  the binary-search insertion CPython's Timsort itself performs on the
  short runs arising here.  On NaN-free input both algorithms produce the
  unique ascending reordering; in the presence of `NaN` the incomparable
  element can leave the output out of order (in the same way for both on
  the inputs considered below).
-/

/-- `pandas.Series.unique()`: distinct values in order of first
appearance. -/
def uniqueApp (l : List (Option ℚ)) : List (Option ℚ) :=
  l.foldl (fun acc x => if x ∈ acc then acc else acc ++ [x]) []

/-- IEEE `<` on a float column with missing values: any comparison
involving `NaN` is `False`. -/
def pfLt : Option ℚ → Option ℚ → Bool
  | some a, some b => decide (a < b)
  | _, _ => false

/-- Binary search for the insertion point of `x` in `l[lo:hi]`, with the
`bisect_right`-style probe `if x < l[mid] then hi := mid else lo := mid+1`.
The fuel argument only bounds the recursion depth; any fuel of at least
`hi - lo` yields the exact CPython behaviour. -/
def binSearch (x : Option ℚ) (l : List (Option ℚ)) : ℕ → ℕ → ℕ → ℕ
  | 0, lo, _ => lo
  | fuel + 1, lo, hi =>
    if lo < hi then
      if pfLt x (l.getD ((lo + hi) / 2) none) then binSearch x l fuel lo ((lo + hi) / 2)
      else binSearch x l fuel ((lo + hi) / 2 + 1) hi
    else lo

/-- Insert `x` into `l` at the binary-search position. -/
def binInsert (x : Option ℚ) (l : List (Option ℚ)) : List (Option ℚ) :=
  let p := binSearch x l l.length 0 l.length
  l.take p ++ x :: l.drop p

/-- Python's `sorted` on a float list, as stable binary-insertion by
IEEE `<`. -/
def pySorted (l : List (Option ℚ)) : List (Option ℚ) :=
  l.foldl (fun acc x => binInsert x acc) []

/-- `int(priority)`: Python truncation toward zero. -/
def pyInt (q : ℚ) : ℤ :=
  if 0 ≤ q then q.floor else q.ceil

/-- The `priority_map` dict of line 135. -/
def priority_map : List (ℤ × String) :=
  [(1, "CRITICAL"), (2, "HIGH ALERT"), (3, "WATCH"), (4, "STABLE")]

/-- `priority_map.get(int(priority), 'Unknown')` (line 146). -/
def priorityLabel (q : ℚ) : String :=
  ((priority_map.lookup (pyInt q)).getD "Unknown")

/-- The `continue` filter of line 141: skip `NaN` and 0, keep the value
otherwise. -/
def keepPriority : Option ℚ → Option ℚ
  | none => none
  | some q => if q = 0 then none else some q

/-- The priority values the loop body actually runs on, in visiting order:
`sorted(unique)` with 0 and `NaN` skipped. -/
def visitedPriorities (df : List Row) : List ℚ :=
  (pySorted (uniqueApp (df.map (fun r => r.priority_class)))).filterMap keepPriority

/-- One printed line of the zone table. -/
structure ZoneEntry where
  label : String
  total : ℕ
  conflicts : ℕ
  pct : ℚ
deriving DecidableEq

/-- The loop body of lines 143-147 for one visited priority value. -/
def zoneEntry (df : List Row) (q : ℚ) : ZoneEntry :=
  let subset := df.filter (fun r => r.priority_class = some q)
  let conflicts := subset.countP (fun r => r.conflict_occurred)
  { label := priorityLabel q
    total := subset.length
    conflicts := conflicts
    pct := if 0 < subset.length then (conflicts : ℚ) / (subset.length : ℚ) * 100 else 0 }

/-- The whole printed zone table, in visiting order. -/
def zoneTable (df : List Row) : List ZoneEntry :=
  (visitedPriorities df).map (zoneEntry df)

/-! ### Concrete datasets used in the theorems below -/

/-- Two clean rows plus one row whose composite score and all six components
are missing: the score stays missing after imputation. -/
def residualMissingDF : List Row :=
  [mkRow (some 0.8) true none, mkRow (some 0.2) false none, mkRow none false none]

/-- Scores anti-correlated with the outcome: Youden's J is maximised at the
anchor point of the ROC curve, so no row clears the optimal threshold. -/
def antiCorrelatedDF : List Row :=
  [mkRow (some 0.2) true none, mkRow (some 0.8) false none]

/-- A single row whose composite score is missing but one component
(`cattle_convergence = 0.4`) is present. -/
def oneComponentDF : List Row :=
  [⟨none, some 0.4, none, none, none, none, none, true, none⟩]

/-- The spec §8 sweep scenario: scores `[0.6, 0.4]`, outcomes `[1, 0]`. -/
def sweepScenarioDF : List Row :=
  [mkRow (some 0.6) true none, mkRow (some 0.4) false none]

/-- A perfectly separating two-row dataset (AUC 1, recall 1 at the optimal
threshold). -/
def deployDF : List Row :=
  [mkRow (some 0.8) true none, mkRow (some 0.2) false none]

/-- Priority classes appearing as `3.0, NaN, 1.0`: Python's `sorted` leaves
the comparison-incomparable `NaN` in place and the visited order is `3, 1`. -/
def zoneNaNDF : List Row :=
  [mkRow none false (some 3), mkRow none true none, mkRow none true (some 1)]

/-- NaN-free priority classes `4, 2, 7, 2, 0` (7 is unmapped, 0 skipped). -/
def zoneCleanDF : List Row :=
  [mkRow none false (some 4), mkRow none true (some 2), mkRow none true (some 7),
   mkRow none false (some 2), mkRow none false (some 0)]

/-- A label column with only positives. -/
def allPositiveData : List (Bool × Option ℚ) :=
  [(true, some 0.5), (true, some 0.7)]

/-! ## Claim theorems -/

/-- C1 (code_bug evidence): on a dataset with a row whose composite score is
still missing after imputation, the script does not exclude the row: line 60
feeds the NaN straight into `roc_auc_score`, which raises `ValueError`, so
the run crashes instead of computing metrics over the non-missing rows. -/
theorem auc_crashes_on_residual_missing_ewi :
    (imputeDF residualMissingDF).countP (fun r => r.ewi.isNone) = 1
    ∧ rocAucScore (scoreData (imputeDF residualMissingDF)) =
        Except.error "Input contains NaN" := by
  exact ⟨rfl, rfl⟩

/-- C2 (code_bug evidence): the summary recomputation at the optimal
threshold (lines 211-216) has no zero guards.  On `antiCorrelatedDF` the run
reaches the summary (`roc_auc_score` returns 0), the optimal threshold
exceeds every score, so `TP + FP = 0`, and the recomputed precision is the
NumPy `nan` of `0/0` (modelled `none`) instead of the 0 demanded by the
claim; the guarded sweep formula of line 84 yields 0 on the very same
counts. -/
theorem summary_precision_unguarded_zero_denominator :
    rocAucScore (scoreData antiCorrelatedDF) = Except.ok 0
    ∧ countTP antiCorrelatedDF (optimalThreshold (cleanPairs antiCorrelatedDF)) +
        countFP antiCorrelatedDF (optimalThreshold (cleanPairs antiCorrelatedDF)) = 0
    ∧ summaryPrecision antiCorrelatedDF (optimalThreshold (cleanPairs antiCorrelatedDF)) = none
    ∧ summaryF1 antiCorrelatedDF (optimalThreshold (cleanPairs antiCorrelatedDF)) = none
    ∧ sweepPrecision antiCorrelatedDF (optimalThreshold (cleanPairs antiCorrelatedDF)) = 0 := by
  exact ⟨rfl, by decide, by decide, by decide, by decide⟩

/-- Reading an in-range index with a default yields the indexed element. -/
lemma getD_eq_of_lt {α : Type} (l : List α) (i : ℕ) (hi : i < l.length) (d : α) :
    l.getD i d = l[i] := by
  simp [List.getD_eq_getElem?_getD, List.getElem?_eq_getElem hi]

/-- `getD` commutes with the imputation map. -/
lemma getD_map_fillna (df : List Row) (i : ℕ) (hi : i < df.length) :
    (df.map fillnaEwi).getD i dummyRow = fillnaEwi (df.getD i dummyRow) := by
  have h2 : i < (df.map fillnaEwi).length := by simpa using hi
  rw [getD_eq_of_lt _ _ h2, getD_eq_of_lt _ _ hi]
  simp

/-- C3: a row with a missing composite score and at least one present
component is filled with the sum of the present components divided by their
number (the mean over non-missing components); a row with all components
missing keeps a missing composite score. -/
theorem imputation_mean_of_present_components (df : List Row) (i : ℕ)
    (hi : i < df.length) (hmiss : (df.getD i dummyRow).ewi = none) :
    (presentComponents (df.getD i dummyRow) ≠ [] →
      ((imputeDF df).getD i dummyRow).ewi =
        some ((presentComponents (df.getD i dummyRow)).sum /
          ((presentComponents (df.getD i dummyRow)).length : ℚ)))
    ∧ (presentComponents (df.getD i dummyRow) = [] →
      ((imputeDF df).getD i dummyRow).ewi = none) := by
  have hmem : df.getD i dummyRow ∈ df := by
    rw [getD_eq_of_lt _ _ hi]
    exact List.getElem_mem hi
  have hcnt : 0 < df.countP (fun r => r.ewi.isNone) :=
    List.countP_pos_iff.mpr ⟨_, hmem, by
      show (df.getD i dummyRow).ewi.isNone = true
      rw [hmiss]
      rfl⟩
  have himp : imputeDF df = df.map fillnaEwi := by simp [imputeDF, hcnt]
  have hfill : ((imputeDF df).getD i dummyRow).ewi =
      rowComponentMean (df.getD i dummyRow) := by
    rw [himp, getD_map_fillna df i hi]
    simp only [fillnaEwi, hmiss]
  constructor
  · intro hne
    rw [hfill]
    unfold rowComponentMean
    rw [if_neg hne]
  · intro he
    rw [hfill]
    unfold rowComponentMean
    rw [if_pos he]

/-- C3 witness: on the concrete one-component row the imputed score is the
present component value. -/
theorem imputation_mean_witness :
    ((imputeDF oneComponentDF).getD 0 dummyRow).ewi =
      some ((presentComponents (oneComponentDF.getD 0 dummyRow)).sum /
        ((presentComponents (oneComponentDF.getD 0 dummyRow)).length : ℚ)) :=
  (imputation_mean_of_present_components oneComponentDF 0 (by decide) (by decide)).1
    (by decide)

/-- C5: on a single-class outcome column (all positives or all negatives)
`roc_auc_score` signals an error instead of returning a number. -/
theorem auc_single_class_signals_error (data : List (Bool × Option ℚ))
    (h : (∀ p ∈ data, p.1 = true) ∨ (∀ p ∈ data, p.1 = false)) :
    ∃ e, rocAucScore data = Except.error e := by
  unfold rocAucScore
  by_cases hnan : data.any (fun p => p.2.isNone) = true
  · rw [if_pos hnan]
    exact ⟨_, rfl⟩
  · rw [if_neg hnan]
    have hcond : ((presentPairs data).all (fun p => p.1)
        || (presentPairs data).all (fun p => !p.1)) = true := by
      rcases h with h | h
      · apply Bool.or_eq_true_iff.mpr
        left
        apply List.all_eq_true.mpr
        intro q hq
        rcases List.mem_filterMap.mp hq with ⟨p, hp, hfp⟩
        rcases Option.map_eq_some'.mp hfp with ⟨v, _, hqe⟩
        rw [← hqe]
        simpa using h p hp
      · apply Bool.or_eq_true_iff.mpr
        right
        apply List.all_eq_true.mpr
        intro q hq
        rcases List.mem_filterMap.mp hq with ⟨p, hp, hfp⟩
        rcases Option.map_eq_some'.mp hfp with ⟨v, _, hqe⟩
        rw [← hqe]
        simpa using h p hp
    rw [if_pos hcond]
    exact ⟨_, rfl⟩

/-- C5 witness: the all-positive dataset makes `roc_auc_score` error. -/
theorem auc_single_class_witness :
    ∃ e, rocAucScore allPositiveData = Except.error e :=
  auc_single_class_signals_error allPositiveData (Or.inl (by decide))

/-- C6: the sweep visits exactly the thresholds 0.4, 0.5, 0.6, 0.7; a row
with a present score is classified positive exactly when the score is at
least the threshold (inclusive); and on the spec scenario (scores 0.6, 0.4
with outcomes 1, 0 at threshold 0.5) the confusion counts are TP=1, TN=1,
FP=0, FN=0 and all four derived metrics equal 1. -/
theorem threshold_sweep_spec :
    sweepThresholds = [0.4, 0.5, 0.6, 0.7]
    ∧ (∀ (r : Row) (t v : ℚ), r.ewi = some v → (predPos r t = true ↔ t ≤ v))
    ∧ (countTN sweepScenarioDF 0.5 = 1 ∧ countFP sweepScenarioDF 0.5 = 0
        ∧ countFN sweepScenarioDF 0.5 = 0 ∧ countTP sweepScenarioDF 0.5 = 1)
    ∧ sweepPrecision sweepScenarioDF 0.5 = 1 ∧ sweepRecall sweepScenarioDF 0.5 = 1
    ∧ sweepF1 sweepScenarioDF 0.5 = 1 ∧ sweepAccuracy sweepScenarioDF 0.5 = 1 := by
  refine ⟨rfl, ?_, by decide, by decide, by decide, by decide, by decide⟩
  intro r t v hv
  simp [predPos, hv]

/-- C6 witness: the inclusive comparison at the concrete scenario row. -/
theorem threshold_sweep_witness :
    predPos (mkRow (some 0.6) true none) 0.5 = true ↔ (0.5 : ℚ) ≤ 0.6 :=
  threshold_sweep_spec.2.1 (mkRow (some 0.6) true none) 0.5 0.6 rfl

/-- `fillnaEwi` only ever writes the `ewi` field, and keeps a present
`ewi` unchanged. -/
lemma fillnaEwi_fields (r : Row) :
    (fillnaEwi r).cattle_convergence = r.cattle_convergence
    ∧ (fillnaEwi r).conflict_risk = r.conflict_risk
    ∧ (fillnaEwi r).resource_stress = r.resource_stress
    ∧ (fillnaEwi r).access_constraints = r.access_constraints
    ∧ (fillnaEwi r).water_score = r.water_score
    ∧ (fillnaEwi r).forage_score = r.forage_score
    ∧ (fillnaEwi r).conflict_occurred = r.conflict_occurred
    ∧ (fillnaEwi r).priority_class = r.priority_class
    ∧ (∀ v, r.ewi = some v → (fillnaEwi r).ewi = some v) := by
  cases hre : r.ewi <;> simp [fillnaEwi, hre]

/-- C9: the Loader/Imputer removes no rows, leaves every component column,
the outcome column and the priority-class column unchanged, and keeps every
already-present composite score. -/
theorem imputer_frame_effect (df : List Row) (i : ℕ) (hi : i < df.length) :
    (imputeDF df).length = df.length
    ∧ ((imputeDF df).getD i dummyRow).cattle_convergence
        = (df.getD i dummyRow).cattle_convergence
    ∧ ((imputeDF df).getD i dummyRow).conflict_risk = (df.getD i dummyRow).conflict_risk
    ∧ ((imputeDF df).getD i dummyRow).resource_stress = (df.getD i dummyRow).resource_stress
    ∧ ((imputeDF df).getD i dummyRow).access_constraints
        = (df.getD i dummyRow).access_constraints
    ∧ ((imputeDF df).getD i dummyRow).water_score = (df.getD i dummyRow).water_score
    ∧ ((imputeDF df).getD i dummyRow).forage_score = (df.getD i dummyRow).forage_score
    ∧ ((imputeDF df).getD i dummyRow).conflict_occurred
        = (df.getD i dummyRow).conflict_occurred
    ∧ ((imputeDF df).getD i dummyRow).priority_class = (df.getD i dummyRow).priority_class
    ∧ (∀ v, (df.getD i dummyRow).ewi = some v →
        ((imputeDF df).getD i dummyRow).ewi = some v) := by
  unfold imputeDF
  split
  · rw [getD_map_fillna df i hi]
    have h := fillnaEwi_fields (df.getD i dummyRow)
    exact ⟨by simp, h.1, h.2.1, h.2.2.1, h.2.2.2.1, h.2.2.2.2.1, h.2.2.2.2.2.1,
      h.2.2.2.2.2.2.1, h.2.2.2.2.2.2.2.1, h.2.2.2.2.2.2.2.2⟩
  · exact ⟨rfl, rfl, rfl, rfl, rfl, rfl, rfl, rfl, rfl, fun _ hv => hv⟩

/-- C9 witness: concrete length preservation through the imputer. -/
theorem imputer_frame_effect_witness :
    (imputeDF residualMissingDF).length = residualMissingDF.length :=
  (imputer_frame_effect residualMissingDF 0 (by decide)).1

/-- C10: the per-indicator evaluation loop runs over exactly the five
components of the `components` dict — `access_constraints`, although used
for composite-score imputation, is never evaluated individually. -/
theorem component_report_excludes_access_constraints (df : List Row) :
    (componentReport df).map (fun e => e.1) =
      ["cattle_convergence", "conflict_risk", "resource_stress",
       "water_score", "forage_score"]
    ∧ "access_constraints" ∈ component_cols_for_ewi
    ∧ "access_constraints" ∉ (componentReport df).map (fun e => e.1) := by
  have h1 : (componentReport df).map (fun e => e.1) =
      ["cattle_convergence", "conflict_risk", "resource_stress",
       "water_score", "forage_score"] := rfl
  refine ⟨h1, by decide, ?_⟩
  rw [h1]
  decide

/-- C10 witness: the exclusion at a concrete dataset. -/
theorem component_report_witness :
    "access_constraints" ∉ (componentReport residualMissingDF).map (fun e => e.1) :=
  (component_report_excludes_access_constraints residualMissingDF).2.2

/-- At any threshold, TP + FN is the number of outcome-positive rows. -/
lemma countTP_add_countFN (df : List Row) (t : ℚ) :
    countTP df t + countFN df t = df.countP (fun r => r.conflict_occurred) := by
  induction df with
  | nil => rfl
  | cons r df ih =>
    unfold countTP countFN at *
    rw [List.countP_cons, List.countP_cons, List.countP_cons]
    cases hc : r.conflict_occurred <;> cases hp : predPos r t <;> simp [hc, hp] <;> omega

/-- The branch structure of the verdict: strict inequalities at 0.75, 0.7
and 0.65, in the order of the `if`/`elif`/`else` of lines 239-251. -/
lemma finalVerdict_iff (a rcl : ℚ) :
    (finalVerdict a rcl = "DEPLOY" ↔ a > 0.75 ∧ rcl > 0.7)
    ∧ (finalVerdict a rcl = "PILOT" ↔ ¬(a > 0.75 ∧ rcl > 0.7) ∧ a > 0.65)
    ∧ (finalVerdict a rcl = "IMPROVE" ↔ ¬(a > 0.75 ∧ rcl > 0.7) ∧ ¬(a > 0.65)) := by
  by_cases h1 : a > 0.75 ∧ rcl > 0.7 <;> by_cases h2 : a > 0.65 <;>
    simp [finalVerdict, h1, h2]

/-- C7: on any dataset that reaches the summary (all scores present, both
outcome classes present), the AUC computation succeeds, the recall
recomputed at the optimal threshold is a number, and the final verdict is
DEPLOY exactly when AUC > 0.75 and that recall > 0.7, otherwise PILOT
exactly when AUC > 0.65, otherwise IMPROVE — all inequalities strict. -/
theorem verdict_boundaries (df : List Row)
    (hall : ∀ r ∈ df, r.ewi.isSome = true)
    (hpos : ∃ r ∈ df, r.conflict_occurred = true)
    (hneg : ∃ r ∈ df, r.conflict_occurred = false) :
    ∃ a, rocAucScore (scoreData df) = Except.ok a
    ∧ ∃ rcl, summaryRecall df (optimalThreshold (cleanPairs df)) = some rcl
    ∧ (finalVerdict a rcl = "DEPLOY" ↔ a > 0.75 ∧ rcl > 0.7)
    ∧ (finalVerdict a rcl = "PILOT" ↔ ¬(a > 0.75 ∧ rcl > 0.7) ∧ a > 0.65)
    ∧ (finalVerdict a rcl = "IMPROVE" ↔ ¬(a > 0.75 ∧ rcl > 0.7) ∧ ¬(a > 0.65)) := by
  have hnan : (scoreData df).any (fun p => p.2.isNone) = false := by
    apply List.any_eq_false.mpr
    intro p hp
    rcases List.mem_map.mp hp with ⟨r, hr, hre⟩
    rcases Option.isSome_iff_exists.mp (hall r hr) with ⟨v, hv⟩
    rw [← hre]
    simp [hv]
  have hmemclean : ∀ r ∈ df, ∀ v, r.ewi = some v →
      (r.conflict_occurred, v) ∈ presentPairs (scoreData df) := by
    intro r hr v hv
    apply List.mem_filterMap.mpr
    exact ⟨(r.conflict_occurred, r.ewi), List.mem_map.mpr ⟨r, hr, rfl⟩, by simp [hv]⟩
  have hall1 : (presentPairs (scoreData df)).all (fun p => p.1) = false := by
    rcases hneg with ⟨r, hr, hc⟩
    rcases Option.isSome_iff_exists.mp (hall r hr) with ⟨v, hv⟩
    apply Bool.eq_false_iff.mpr
    intro hcontra
    have h := List.all_eq_true.mp hcontra _ (hmemclean r hr v hv)
    rw [hc] at h
    simp at h
  have hall2 : (presentPairs (scoreData df)).all (fun p => !p.1) = false := by
    rcases hpos with ⟨r, hr, hc⟩
    rcases Option.isSome_iff_exists.mp (hall r hr) with ⟨v, hv⟩
    apply Bool.eq_false_iff.mpr
    intro hcontra
    have h := List.all_eq_true.mp hcontra _ (hmemclean r hr v hv)
    rw [hc] at h
    simp at h
  have hauc : rocAucScore (scoreData df) =
      Except.ok (aucOfCurve (rocCurve (presentPairs (scoreData df)))) := by
    unfold rocAucScore
    rw [hnan, hall1, hall2]
    simp
  have hden : df.countP (fun r => r.conflict_occurred) ≠ 0 := by
    rcases hpos with ⟨r, hr, hc⟩
    have h : 0 < df.countP (fun r => r.conflict_occurred) :=
      List.countP_pos_iff.mpr ⟨r, hr, by simpa using hc⟩
    omega
  have hrec : summaryRecall df (optimalThreshold (cleanPairs df)) =
      some ((countTP df (optimalThreshold (cleanPairs df)) : ℚ) /
        ((countTP df (optimalThreshold (cleanPairs df)) : ℚ) +
          (countFN df (optimalThreshold (cleanPairs df)) : ℚ))) := by
    unfold summaryRecall pyDiv
    rw [if_neg]
    push_cast [← Nat.cast_add]
    rw [countTP_add_countFN]
    exact_mod_cast hden
  exact ⟨_, hauc, _, hrec, (finalVerdict_iff _ _).1, (finalVerdict_iff _ _).2.1,
    (finalVerdict_iff _ _).2.2⟩

/-- The index returned by `argmaxIdx` is in range on a nonempty list. -/
lemma argmaxIdx_lt_length (l : List ℚ) (hne : l ≠ []) : argmaxIdx l < l.length := by
  induction l with
  | nil => exact absurd rfl hne
  | cons x t ih =>
    cases t with
    | nil => simp [argmaxIdx]
    | cons y ys =>
      simp only [argmaxIdx]
      split
      · have h := ih (by simp)
        simp only [List.length_cons] at h ⊢
        omega
      · simp

/-- The value at `argmaxIdx` is an upper bound of the list. -/
lemma argmaxIdx_is_max (l : List ℚ) (j : ℕ) (hj : j < l.length) :
    l.getD j 0 ≤ l.getD (argmaxIdx l) 0 := by
  induction l generalizing j with
  | nil => simp at hj
  | cons x t ih =>
    cases t with
    | nil =>
      have hj0 : j = 0 := by simpa using hj
      subst hj0
      simp [argmaxIdx]
    | cons y ys =>
      simp only [argmaxIdx]
      split
      case isTrue h =>
        cases j with
        | zero => simpa using le_of_lt h
        | succ k =>
          have hk : k < (y :: ys).length := by simpa using hj
          simpa using ih k hk
      case isFalse h =>
        push_neg at h
        cases j with
        | zero => simp
        | succ k =>
          have hk : k < (y :: ys).length := by simpa using hj
          have h1 : (y :: ys).getD k 0 ≤ (y :: ys).getD (argmaxIdx (y :: ys)) 0 := ih k hk
          simpa using le_trans h1 h

/-- `argmaxIdx` returns the first occurrence of the maximum: every earlier
entry is strictly smaller. -/
lemma argmaxIdx_first (l : List ℚ) (j : ℕ) (hj : j < argmaxIdx l) :
    l.getD j 0 < l.getD (argmaxIdx l) 0 := by
  induction l generalizing j with
  | nil => simp [argmaxIdx] at hj
  | cons x t ih =>
    cases t with
    | nil => simp [argmaxIdx] at hj
    | cons y ys =>
      by_cases h : (y :: ys).getD (argmaxIdx (y :: ys)) 0 > x
      · simp only [argmaxIdx, if_pos h] at hj ⊢
        cases j with
        | zero => simpa using h
        | succ k =>
          have hk : k < argmaxIdx (y :: ys) := by omega
          simpa using ih k hk
      · simp only [argmaxIdx, if_neg h] at hj
        exact absurd hj (Nat.not_lt_zero j)

/-- One-step unfolding of `clfPoints` on a two-or-more element list. -/
lemma clfPoints_cons₂ (fp tp : ℕ) (b : Bool) (s : ℚ) (b2 : Bool) (s2 : ℚ)
    (rest2 : List (Bool × ℚ)) :
    clfPoints fp tp ((b, s) :: (b2, s2) :: rest2) =
      if s2 = s then
        clfPoints (if b then fp else fp + 1) (if b then tp + 1 else tp) ((b2, s2) :: rest2)
      else ((if b then fp else fp + 1), (if b then tp + 1 else tp), s) ::
        clfPoints (if b then fp else fp + 1) (if b then tp + 1 else tp) ((b2, s2) :: rest2) :=
  rfl

/-- One-step unfolding of `clfPoints` on a singleton. -/
lemma clfPoints_one (fp tp : ℕ) (b : Bool) (s : ℚ) :
    clfPoints fp tp [(b, s)] = [((if b then fp else fp + 1), (if b then tp + 1 else tp), s)] :=
  rfl

/-- Every threshold emitted by `clfPoints` is one of the input scores. -/
lemma clfPoints_thr_mem (fp tp : ℕ) (l : List (Bool × ℚ)) (t : ℚ)
    (ht : t ∈ (clfPoints fp tp l).map (fun p => p.2.2)) :
    t ∈ l.map (fun q => q.2) := by
  induction l generalizing fp tp with
  | nil => simp [clfPoints] at ht
  | cons hd rest ih =>
    obtain ⟨b, s⟩ := hd
    cases rest with
    | nil =>
      simp [clfPoints] at ht
      simp [ht]
    | cons hd2 rest2 =>
      obtain ⟨b2, s2⟩ := hd2
      rw [clfPoints_cons₂] at ht
      rw [List.map_cons, List.mem_cons]
      split at ht
      · exact Or.inr (ih _ _ ht)
      · rw [List.map_cons, List.mem_cons] at ht
        rcases ht with rfl | ht2
        · exact Or.inl rfl
        · exact Or.inr (ih _ _ ht2)

/-- On a descending-score input, the thresholds emitted by `clfPoints` are
strictly descending (one threshold per equal-score block). -/
lemma clfPoints_thr_desc (fp tp : ℕ) (l : List (Bool × ℚ))
    (hs : (l.map (fun q => q.2)).Pairwise (fun a b => b ≤ a)) :
    ((clfPoints fp tp l).map (fun p => p.2.2)).Pairwise (fun a b => a > b) := by
  induction l generalizing fp tp with
  | nil => simp [clfPoints]
  | cons hd rest ih =>
    obtain ⟨b, s⟩ := hd
    rw [List.map_cons, List.pairwise_cons] at hs
    obtain ⟨hhead, htail⟩ := hs
    cases rest with
    | nil => simp [clfPoints_one]
    | cons hd2 rest2 =>
      obtain ⟨b2, s2⟩ := hd2
      rw [clfPoints_cons₂]
      split
      case isTrue he => exact ih _ _ htail
      case isFalse he =>
        rw [List.map_cons, List.pairwise_cons]
        refine ⟨?_, ih _ _ htail⟩
        intro t ht
        have hmem := clfPoints_thr_mem _ _ _ t ht
        have hs2 : s2 < s := lt_of_le_of_ne (hhead s2 (by simp)) he
        rw [List.map_cons, List.mem_cons] at hmem
        rcases hmem with rfl | hmem2
        · exact hs2
        · rw [List.map_cons, List.pairwise_cons] at htail
          exact lt_of_le_of_lt (htail.1 t hmem2) hs2

/-- `clfPoints` emits at least the final point on a nonempty input. -/
lemma clfPoints_ne_nil (fp tp : ℕ) (l : List (Bool × ℚ)) (h : l ≠ []) :
    clfPoints fp tp l ≠ [] := by
  induction l generalizing fp tp with
  | nil => exact absurd rfl h
  | cons hd rest ih =>
    obtain ⟨b, s⟩ := hd
    cases rest with
    | nil => simp [clfPoints_one]
    | cons hd2 rest2 =>
      obtain ⟨b2, s2⟩ := hd2
      rw [clfPoints_cons₂]
      split
      · exact ih _ _ (by simp)
      · simp

/-- The `drop_intermediate` middle pass keeps a subsequence. -/
lemma dropMid_sublist (prev : ℕ × ℕ × ℚ) (l : List (ℕ × ℕ × ℚ)) :
    List.Sublist (dropMid prev l) l := by
  induction l generalizing prev with
  | nil => simp [dropMid]
  | cons c rest ih =>
    cases rest with
    | nil => simp [dropMid]
    | cons nxt rest2 =>
      simp only [dropMid]
      split
      · simpa using List.Sublist.cons₂ c (ih c)
      · simpa using List.Sublist.cons c (ih c)

/-- `drop_intermediate` keeps a subsequence of the curve. -/
lemma dropIntermediate_sublist (l : List (ℕ × ℕ × ℚ)) :
    List.Sublist (dropIntermediate l) l := by
  cases l with
  | nil => simp [dropIntermediate]
  | cons p0 rest =>
    unfold dropIntermediate
    split
    · exact List.Sublist.cons₂ p0 (dropMid_sublist p0 rest)
    · exact List.Sublist.refl _

/-- `drop_intermediate` always keeps the first point. -/
lemma dropIntermediate_ne_nil (l : List (ℕ × ℕ × ℚ)) (h : l ≠ []) :
    dropIntermediate l ≠ [] := by
  cases l with
  | nil => exact absurd rfl h
  | cons p0 rest =>
    unfold dropIntermediate
    split
    · simp
    · simp

/-- The scores of the descending sort are descending. -/
lemma sortDesc_scores_sorted (pts : List (Bool × ℚ)) :
    ((sortDescByScore pts).map (fun q => q.2)).Pairwise (fun a b => b ≤ a) := by
  have h : (sortDescByScore pts).Pairwise scoreGE := List.sorted_insertionSort scoreGE pts
  exact List.Pairwise.map _ (fun a b hab => hab) h

/-- The descending sort of a nonempty list is nonempty. -/
lemma sortDesc_ne_nil (pts : List (Bool × ℚ)) (h : pts ≠ []) :
    sortDescByScore pts ≠ [] := by
  intro hc
  have hp : List.Perm (sortDescByScore pts) pts := List.perm_insertionSort scoreGE pts
  rw [hc] at hp
  exact h (hp.symm.eq_nil)

/-- The thresholds of the undropped, unanchored curve are strictly
descending. -/
lemma rawRoc_thr_desc (pts : List (Bool × ℚ)) :
    ((rawRoc pts).map (fun p => p.2.2)).Pairwise (fun a b => a > b) := by
  have h1 := clfPoints_thr_desc 0 0 _ (sortDesc_scores_sorted pts)
  have h2 := dropIntermediate_sublist (clfPoints 0 0 (sortDescByScore pts))
  exact List.Pairwise.sublist (List.Sublist.map _ h2) h1

/-- The raw curve of a nonempty input is nonempty. -/
lemma rawRoc_ne_nil (pts : List (Bool × ℚ)) (h : pts ≠ []) : rawRoc pts ≠ [] :=
  dropIntermediate_ne_nil _ (clfPoints_ne_nil 0 0 _ (sortDesc_ne_nil pts h))

/-- The full `roc_curve` threshold array (with the `max + 1` anchor
prepended) is strictly descending. -/
lemma rocCurve_thr_desc (pts : List (Bool × ℚ)) (hne : pts ≠ []) :
    ((rocCurve pts).thresholds).Pairwise (fun a b => a > b) := by
  have hdesc := rawRoc_thr_desc pts
  have hnn := rawRoc_ne_nil pts hne
  have hthr : (rocCurve pts).thresholds =
      (((rawRoc pts).headD (0, 0, 0)).2.2 + 1) :: (rawRoc pts).map (fun q => q.2.2) := rfl
  rw [hthr, List.pairwise_cons]
  refine ⟨?_, hdesc⟩
  intro t ht
  rcases hraw : rawRoc pts with _ | ⟨p, rest⟩
  · exact absurd hraw hnn
  · rw [hraw] at hdesc ht
    rw [List.map_cons, List.mem_cons] at ht
    rcases ht with rfl | ht2
    · simp
    · rw [List.map_cons, List.pairwise_cons] at hdesc
      have h := hdesc.1 t ht2
      simp only [List.headD_cons]
      linarith

/-- The Youden list and the threshold array have the same length
(`rawRoc` length plus the anchor). -/
lemma jList_length (pts : List (Bool × ℚ)) :
    (jList pts).length = ((rocCurve pts).thresholds).length := by
  show (List.zipWith _ (rocCurve pts).tpr (rocCurve pts).fpr).length = _
  rw [List.length_zipWith]
  simp only [rocCurve, List.length_map, List.length_cons]
  omega

/-- The Youden list is never empty (the anchor point is always there). -/
lemma jList_ne_nil (pts : List (Bool × ℚ)) : jList pts ≠ [] := by
  have h : (jList pts).length = (rawRoc pts).length + 1 := by
    show (List.zipWith _ (rocCurve pts).tpr (rocCurve pts).fpr).length = _
    rw [List.length_zipWith]
    simp only [rocCurve, List.length_map, List.length_cons]
    omega
  intro hc
  rw [hc] at h
  simp at h

/-- C4: `optimal_threshold` is `thresholds[argmax(tpr - fpr)]` on the
curve's native (descending-threshold) ordering; the selected index attains
the maximal Youden statistic, every strictly earlier index has a strictly
smaller statistic (first-occurrence tie-break of `np.argmax`), and hence
among tied indices the selected threshold is the highest. -/
theorem optimal_threshold_first_max_youden (pts : List (Bool × ℚ)) (hne : pts ≠ []) :
    optimalThreshold pts = ((rocCurve pts).thresholds).getD (optimalIdx pts) 0
    ∧ ((rocCurve pts).thresholds).Pairwise (fun a b => a > b)
    ∧ (jList pts).length = ((rocCurve pts).thresholds).length
    ∧ optimalIdx pts < (jList pts).length
    ∧ (∀ j, j < (jList pts).length →
        (jList pts).getD j 0 ≤ (jList pts).getD (optimalIdx pts) 0)
    ∧ (∀ j, j < optimalIdx pts →
        (jList pts).getD j 0 < (jList pts).getD (optimalIdx pts) 0)
    ∧ (∀ j, j < (jList pts).length →
        (jList pts).getD j 0 = (jList pts).getD (optimalIdx pts) 0 →
        ((rocCurve pts).thresholds).getD j 0 ≤ optimalThreshold pts) := by
  have hlen := jList_length pts
  have hlt : optimalIdx pts < (jList pts).length :=
    argmaxIdx_lt_length _ (jList_ne_nil pts)
  have hdesc := rocCurve_thr_desc pts hne
  refine ⟨rfl, hdesc, hlen, hlt, fun j hj => argmaxIdx_is_max _ j hj,
    fun j hj => argmaxIdx_first _ j hj, ?_⟩
  intro j hj heq
  rcases lt_trichotomy j (optimalIdx pts) with hlt2 | rfl | hgt
  · exact absurd heq (ne_of_lt (argmaxIdx_first _ j hlt2))
  · exact le_of_eq rfl
  · have hjt : j < ((rocCurve pts).thresholds).length := hlen ▸ hj
    have hit : optimalIdx pts < ((rocCurve pts).thresholds).length := hlen ▸ hlt
    rw [getD_eq_of_lt _ _ hjt, show optimalThreshold pts =
      ((rocCurve pts).thresholds).getD (optimalIdx pts) 0 from rfl,
      getD_eq_of_lt _ _ hit]
    exact le_of_lt (List.pairwise_iff_getElem.mp hdesc _ _ hit hjt hgt)

/-- C4 witness: the maximality of the selected Youden value at a concrete
curve index on the separating two-row dataset. -/
theorem optimal_threshold_witness :
    (jList (cleanPairs deployDF)).getD 0 0 ≤
      (jList (cleanPairs deployDF)).getD (optimalIdx (cleanPairs deployDF)) 0 :=
  (optimal_threshold_first_max_youden (cleanPairs deployDF)
    (by decide)).2.2.2.2.1 0 (by decide)

/-- C7 witness: the verdict pipeline evaluated on the separating two-row
dataset. -/
theorem verdict_boundaries_witness :
    ∃ a, rocAucScore (scoreData deployDF) = Except.ok a
    ∧ ∃ rcl, summaryRecall deployDF (optimalThreshold (cleanPairs deployDF)) = some rcl
    ∧ (finalVerdict a rcl = "DEPLOY" ↔ a > 0.75 ∧ rcl > 0.7)
    ∧ (finalVerdict a rcl = "PILOT" ↔ ¬(a > 0.75 ∧ rcl > 0.7) ∧ a > 0.65)
    ∧ (finalVerdict a rcl = "IMPROVE" ↔ ¬(a > 0.75 ∧ rcl > 0.7) ∧ ¬(a > 0.65)) :=
  verdict_boundaries deployDF (by decide) (by decide) (by decide)

/-- IEEE `<` is asymmetric (comparisons with `NaN` are all false). -/
lemma pfLt_asymm {a b : Option ℚ} (h : pfLt a b = true) : pfLt b a = false := by
  cases a with
  | none => simp [pfLt] at h
  | some x =>
    cases b with
    | none => simp [pfLt] at h
    | some y =>
      simp [pfLt] at h ⊢
      linarith

/-- In an all-present column, an in-range read is a present value. -/
lemma getD_isSome_of_mem {m : List (Option ℚ)} (hm : ∀ a ∈ m, a.isSome = true)
    {i : ℕ} (hi : i < m.length) : ∃ v : ℚ, m.getD i none = some v := by
  have h := hm _ (List.getElem_mem hi)
  rw [getD_eq_of_lt _ _ hi]
  exact Option.isSome_iff_exists.mp h

/-- Indexed form of the sortedness invariant. -/
lemma pairwise_getD {m : List (Option ℚ)}
    (hs : m.Pairwise (fun a b => pfLt b a = false))
    {i j : ℕ} (hi : i < m.length) (hj : j < m.length) (hij : i < j) :
    pfLt (m.getD j none) (m.getD i none) = false := by
  rw [getD_eq_of_lt _ _ hi, getD_eq_of_lt _ _ hj]
  exact List.pairwise_iff_getElem.mp hs i j hi hj hij

/-- Correctness of the binary-search insertion point on a sorted,
`NaN`-free run: every element left of the returned position does not
compare greater than `x`, and `x` compares less than every element at or
right of it. -/
lemma binSearch_spec (x : Option ℚ) (m : List (Option ℚ))
    (hx : x.isSome = true) (hm : ∀ a ∈ m, a.isSome = true)
    (hs : m.Pairwise (fun a b => pfLt b a = false)) :
    ∀ (fuel lo hi : ℕ), lo ≤ hi → hi ≤ m.length → hi - lo ≤ fuel →
    (∀ i, i < lo → pfLt x (m.getD i none) = false) →
    (∀ i, hi ≤ i → i < m.length → pfLt x (m.getD i none) = true) →
    lo ≤ binSearch x m fuel lo hi ∧ binSearch x m fuel lo hi ≤ hi
    ∧ (∀ i, i < binSearch x m fuel lo hi → pfLt x (m.getD i none) = false)
    ∧ (∀ i, binSearch x m fuel lo hi ≤ i → i < m.length →
        pfLt x (m.getD i none) = true) := by
  obtain ⟨vx, hvx⟩ := Option.isSome_iff_exists.mp hx
  intro fuel
  induction fuel with
  | zero =>
    intro lo hi hlohi hhilen hfuel hlo hhi
    have heq : lo = hi := by omega
    subst heq
    simp only [binSearch]
    exact ⟨le_refl _, le_refl _, hlo, fun i h1 h2 => hhi i h1 h2⟩
  | succ fuel ih =>
    intro lo hi hlohi hhilen hfuel hlo hhi
    simp only [binSearch]
    split
    case isTrue hlt =>
      have hmlo : lo ≤ (lo + hi) / 2 := by omega
      have hmhi : (lo + hi) / 2 < hi := by omega
      have hmlen : (lo + hi) / 2 < m.length := lt_of_lt_of_le hmhi hhilen
      obtain ⟨vm, hvm⟩ := getD_isSome_of_mem hm hmlen
      split
      case isTrue hcmp =>
        have hres := ih lo ((lo + hi) / 2) hmlo (le_of_lt hmlen) (by omega) hlo ?_
        · obtain ⟨h1, h2, h3, h4⟩ := hres
          exact ⟨h1, le_trans h2 (le_of_lt hmhi), h3, h4⟩
        · intro i h1 h2
          rcases eq_or_lt_of_le h1 with heq | h3
          · rw [← heq]
            exact hcmp
          · obtain ⟨vi, hvi⟩ := getD_isSome_of_mem hm h2
            have ho := pairwise_getD hs hmlen h2 h3
            rw [hvx, hvm] at hcmp
            rw [hvm, hvi] at ho
            rw [hvx, hvi]
            simp [pfLt] at hcmp ho ⊢
            linarith
      case isFalse hcmp =>
        have hcmp2 : pfLt x (m.getD ((lo + hi) / 2) none) = false := by
          revert hcmp
          cases pfLt x (m.getD ((lo + hi) / 2) none) <;> simp
        have hres := ih ((lo + hi) / 2 + 1) hi (by omega) hhilen (by omega) ?_ hhi
        · obtain ⟨h1, h2, h3, h4⟩ := hres
          exact ⟨by omega, h2, h3, h4⟩
        · intro i h1
          rcases Nat.lt_succ_iff_lt_or_eq.mp h1 with h2 | heq
          · rcases Nat.lt_or_ge i lo with h3 | h3
            · exact hlo i h3
            · have hilen : i < m.length := lt_of_lt_of_le (lt_trans h2 hmhi) hhilen
              obtain ⟨vi, hvi⟩ := getD_isSome_of_mem hm hilen
              have ho := pairwise_getD hs hilen hmlen h2
              rw [hvx, hvm] at hcmp2
              rw [hvm, hvi] at ho
              rw [hvx, hvi]
              simp [pfLt] at hcmp2 ho ⊢
              linarith
          · rw [heq]
            exact hcmp2
    case isFalse hlt =>
      have heq : lo = hi := by omega
      subst heq
      exact ⟨le_refl _, le_refl _, hlo, fun i h1 h2 => hhi i h1 h2⟩

/-- Unfolding of `binInsert`. -/
lemma binInsert_eq (x : Option ℚ) (m : List (Option ℚ)) :
    binInsert x m = m.take (binSearch x m m.length 0 m.length) ++
      x :: m.drop (binSearch x m m.length 0 m.length) := rfl

/-- Elements of a `take` prefix, by index. -/
lemma mem_take_idx {α : Type} (m : List α) (p : ℕ) (d : α) (a : α) (ha : a ∈ m.take p) :
    ∃ i, i < p ∧ i < m.length ∧ m.getD i d = a := by
  rcases List.mem_iff_getElem.mp ha with ⟨i, hi, hai⟩
  have hlen : i < p ∧ i < m.length := by
    have h2 := hi
    rw [List.length_take] at h2
    omega
  refine ⟨i, hlen.1, hlen.2, ?_⟩
  rw [getD_eq_of_lt _ _ hlen.2, ← hai]
  exact (List.getElem_take m).symm

/-- Elements of a `drop` suffix, by index. -/
lemma mem_drop_idx {α : Type} (m : List α) (p : ℕ) (d : α) (a : α) (ha : a ∈ m.drop p) :
    ∃ j, p + j < m.length ∧ m.getD (p + j) d = a := by
  rcases List.mem_iff_getElem.mp ha with ⟨j, hj, haj⟩
  have hlen : p + j < m.length := by
    rw [List.length_drop] at hj
    omega
  refine ⟨j, hlen, ?_⟩
  rw [getD_eq_of_lt _ _ hlen, ← haj]
  exact (List.getElem_drop m).symm

/-- `binInsert` is insertion up to permutation. -/
lemma binInsert_perm (x : Option ℚ) (m : List (Option ℚ)) :
    List.Perm (binInsert x m) (x :: m) := by
  rw [binInsert_eq]
  refine List.perm_middle.trans ?_
  rw [List.take_append_drop]

/-- Inserting a present value at the binary-search position of a sorted,
`NaN`-free run keeps it sorted. -/
lemma binInsert_sorted (x : Option ℚ) (m : List (Option ℚ))
    (hx : x.isSome = true) (hm : ∀ a ∈ m, a.isSome = true)
    (hs : m.Pairwise (fun a b => pfLt b a = false)) :
    (binInsert x m).Pairwise (fun a b => pfLt b a = false) := by
  obtain ⟨hp1, hp2, hp3, hp4⟩ := binSearch_spec x m hx hm hs m.length 0 m.length
    (Nat.zero_le _) (le_refl _) (by omega)
    (fun i hi => absurd hi (Nat.not_lt_zero i))
    (fun i h1 h2 => absurd h2 (by omega))
  rw [binInsert_eq, List.pairwise_append]
  refine ⟨List.Pairwise.sublist (List.take_sublist _ m) hs, ?_, ?_⟩
  · rw [List.pairwise_cons]
    refine ⟨?_, List.Pairwise.sublist (List.drop_sublist _ m) hs⟩
    intro b hb
    rcases mem_drop_idx m _ none b hb with ⟨j, hj, hbj⟩
    rw [← hbj]
    exact pfLt_asymm (hp4 _ (by omega) hj)
  · intro a ha b hb
    rcases mem_take_idx m _ none a ha with ⟨i, hip, hilen, hai⟩
    rcases List.mem_cons.mp hb with rfl | hb2
    · rw [← hai]
      exact hp3 i hip
    · rcases mem_drop_idx m _ none b hb2 with ⟨j, hj, hbj⟩
      rw [← hai, ← hbj]
      exact pairwise_getD hs hilen hj (by omega)

/-- `pySorted` permutes its input. -/
lemma pySorted_perm (l : List (Option ℚ)) : List.Perm (pySorted l) l := by
  suffices h : ∀ (t acc : List (Option ℚ)),
      List.Perm (t.foldl (fun acc x => binInsert x acc) acc) (acc ++ t) by
    simpa [pySorted] using h l []
  intro t
  induction t with
  | nil => intro acc; simp
  | cons x t ih =>
    intro acc
    rw [List.foldl_cons]
    refine (ih (binInsert x acc)).trans ?_
    refine ((binInsert_perm x acc).append_right t).trans ?_
    exact List.perm_middle.symm

/-- On an all-present input, `pySorted` output is sorted (in the
`pfLt`-negation form). -/
lemma pySorted_sorted (l : List (Option ℚ)) (hl : ∀ a ∈ l, a.isSome = true) :
    (pySorted l).Pairwise (fun a b => pfLt b a = false) := by
  suffices h : ∀ (t acc : List (Option ℚ)), (∀ a ∈ t, a.isSome = true) →
      (∀ a ∈ acc, a.isSome = true) →
      acc.Pairwise (fun a b => pfLt b a = false) →
      (t.foldl (fun acc x => binInsert x acc) acc).Pairwise
        (fun a b => pfLt b a = false) by
    exact h l [] hl (by simp) (by simp)
  intro t
  induction t with
  | nil =>
    intro acc _ _ hsort
    simpa using hsort
  | cons x t ih =>
    intro acc ht hacc hsort
    rw [List.foldl_cons]
    apply ih
    · intro a ha
      exact ht a (List.mem_cons_of_mem x ha)
    · intro a ha
      have hmem := (binInsert_perm x acc).mem_iff.mp ha
      rcases List.mem_cons.mp hmem with rfl | h2
      · exact ht a (List.mem_cons_self a t)
      · exact hacc a h2
    · exact binInsert_sorted x acc (ht x (List.mem_cons_self x t)) hacc hsort

/-- Membership through `uniqueApp` (`Series.unique()`). -/
lemma uniqueApp_mem (l : List (Option ℚ)) (x : Option ℚ) :
    x ∈ uniqueApp l ↔ x ∈ l := by
  suffices h : ∀ (t acc : List (Option ℚ)),
      x ∈ t.foldl (fun acc y => if y ∈ acc then acc else acc ++ [y]) acc ↔
        x ∈ acc ∨ x ∈ t by
    simpa [uniqueApp] using h l []
  intro t
  induction t with
  | nil => intro acc; simp
  | cons y t ih =>
    intro acc
    rw [List.foldl_cons, ih]
    by_cases hy : y ∈ acc
    · rw [if_pos hy]
      constructor
      · rintro (h | h)
        · exact Or.inl h
        · exact Or.inr (List.mem_cons_of_mem y h)
      · rintro (h | h)
        · exact Or.inl h
        · rcases List.mem_cons.mp h with rfl | h2
          · exact Or.inl hy
          · exact Or.inr h2
    · rw [if_neg hy]
      rw [List.mem_append]
      constructor
      · rintro ((h | h) | h)
        · exact Or.inl h
        · rw [List.mem_singleton] at h
          rw [h]
          exact Or.inr (List.mem_cons_self y t)
        · exact Or.inr (List.mem_cons_of_mem y h)
      · rintro (h | h)
        · exact Or.inl (Or.inl h)
        · rcases List.mem_cons.mp h with rfl | h2
          · exact Or.inl (Or.inr (List.mem_singleton.mpr rfl))
          · exact Or.inr h2

/-- `uniqueApp` has no duplicates. -/
lemma uniqueApp_nodup (l : List (Option ℚ)) : (uniqueApp l).Nodup := by
  suffices h : ∀ (t acc : List (Option ℚ)), acc.Nodup →
      (t.foldl (fun acc y => if y ∈ acc then acc else acc ++ [y]) acc).Nodup by
    exact h l [] List.nodup_nil
  intro t
  induction t with
  | nil =>
    intro acc hacc
    simpa using hacc
  | cons y t ih =>
    intro acc hacc
    rw [List.foldl_cons]
    apply ih
    by_cases hy : y ∈ acc
    · rw [if_pos hy]
      exact hacc
    · rw [if_neg hy]
      refine List.Nodup.append hacc (List.nodup_singleton y) ?_
      rw [List.disjoint_singleton]
      exact hy

/-- When the `continue` filter keeps a value. -/
lemma keepPriority_eq_some (o : Option ℚ) (q : ℚ) :
    keepPriority o = some q ↔ o = some q ∧ q ≠ 0 := by
  cases o with
  | none => simp [keepPriority]
  | some v =>
    by_cases hv : v = 0
    · subst hv
      simp only [keepPriority, if_pos rfl]
      constructor
      · intro h
        cases h
      · rintro ⟨h1, h2⟩
        injection h1 with h1
        exact absurd h1.symm h2
    · simp only [keepPriority, if_neg hv]
      constructor
      · intro h
        injection h with h
        subst h
        exact ⟨rfl, hv⟩
      · rintro ⟨h1, _⟩
        exact h1

/-- C8 counterexample: on priority classes appearing as `3, NaN, 1`,
Python's comparison sort leaves the incomparable `NaN` in place, and the
loop visits class 3 before class 1 — the visiting order is not ascending. -/
theorem zone_order_counterexample :
    visitedPriorities zoneNaNDF = [3, 1]
    ∧ ¬ (visitedPriorities zoneNaNDF).Pairwise (fun a b : ℚ => a ≤ b) := by
  constructor
  · decide
  · intro h
    have h2 : visitedPriorities zoneNaNDF = [3, 1] := by decide
    rw [h2, List.pairwise_cons] at h
    have h3 := h.1 1 (List.mem_singleton.mpr rfl)
    norm_num at h3

/-- C8 (amended): the zone loop visits every distinct non-0, non-NaN
priority value exactly once, with the stated count, conflict count,
percentage and Unknown-labelling; the visiting order is ascending whenever
the priority column has no missing values (with NaN present the comparison
sort can leave the visited values out of order, see the counterexample). -/
theorem zone_validator_amended (df : List Row) :
    ((∀ r ∈ df, r.priority_class ≠ none) →
      (visitedPriorities df).Pairwise (fun a b : ℚ => a ≤ b))
    ∧ (visitedPriorities df).Nodup
    ∧ (∀ q : ℚ, q ∈ visitedPriorities df ↔
        (some q ∈ df.map (fun r => r.priority_class) ∧ q ≠ 0))
    ∧ zoneTable df = (visitedPriorities df).map (zoneEntry df)
    ∧ (∀ q : ℚ,
        (zoneEntry df q).total = (df.filter (fun r => r.priority_class = some q)).length
        ∧ (zoneEntry df q).conflicts =
            (df.filter (fun r => r.priority_class = some q)).countP
              (fun r => r.conflict_occurred)
        ∧ (zoneEntry df q).pct =
            (if 0 < (df.filter (fun r => r.priority_class = some q)).length then
              ((df.filter (fun r => r.priority_class = some q)).countP
                  (fun r => r.conflict_occurred) : ℚ) /
                ((df.filter (fun r => r.priority_class = some q)).length : ℚ) * 100
            else 0)
        ∧ ((pyInt q ≠ 1 ∧ pyInt q ≠ 2 ∧ pyInt q ≠ 3 ∧ pyInt q ≠ 4) →
            (zoneEntry df q).label = "Unknown")) := by
  refine ⟨?_, ?_, ?_, rfl, ?_⟩
  · intro hn
    have hcolsome : ∀ a ∈ df.map (fun r => r.priority_class), a.isSome = true := by
      intro a ha
      rcases List.mem_map.mp ha with ⟨r, hr, hra⟩
      rw [← hra]
      exact Option.ne_none_iff_isSome.mp (hn r hr)
    have husome : ∀ a ∈ uniqueApp (df.map (fun r => r.priority_class)), a.isSome = true :=
      fun a ha => hcolsome a ((uniqueApp_mem _ a).mp ha)
    have hmsome : ∀ a ∈ pySorted (uniqueApp (df.map (fun r => r.priority_class))),
        a.isSome = true :=
      fun a ha => husome a ((pySorted_perm _).mem_iff.mp ha)
    have hsorted := pySorted_sorted _ husome
    apply List.pairwise_filterMap.mpr
    apply List.Pairwise.imp_of_mem ?_ hsorted
    intro a b ha hb hr x hx y hy
    rw [Option.mem_def] at hx hy
    have hax := (keepPriority_eq_some a x).mp hx
    have hby := (keepPriority_eq_some b y).mp hy
    rw [hax.1, hby.1] at hr
    simp [pfLt] at hr
    linarith
  · have h1 := uniqueApp_nodup (df.map (fun r => r.priority_class))
    have h2 : (pySorted (uniqueApp (df.map (fun r => r.priority_class)))).Nodup :=
      ((pySorted_perm _).nodup_iff).mpr h1
    apply List.Nodup.filterMap ?_ h2
    intro a a' c hca hca'
    rw [Option.mem_def] at hca hca'
    rw [((keepPriority_eq_some a c).mp hca).1, ((keepPriority_eq_some a' c).mp hca').1]
  · intro q
    constructor
    · intro hq
      rcases List.mem_filterMap.mp hq with ⟨o, ho, hko⟩
      have h := (keepPriority_eq_some o q).mp hko
      rw [h.1] at ho
      exact ⟨(uniqueApp_mem _ _).mp ((pySorted_perm _).mem_iff.mp ho), h.2⟩
    · rintro ⟨hcol, hq0⟩
      apply List.mem_filterMap.mpr
      refine ⟨some q, ?_, (keepPriority_eq_some (some q) q).mpr ⟨rfl, hq0⟩⟩
      exact (pySorted_perm _).mem_iff.mpr ((uniqueApp_mem _ _).mpr hcol)
  · intro q
    refine ⟨rfl, rfl, rfl, ?_⟩
    rintro ⟨h1, h2, h3, h4⟩
    have e1 : (pyInt q == 1) = false := beq_eq_false_iff_ne.mpr h1
    have e2 : (pyInt q == 2) = false := beq_eq_false_iff_ne.mpr h2
    have e3 : (pyInt q == 3) = false := beq_eq_false_iff_ne.mpr h3
    have e4 : (pyInt q == 4) = false := beq_eq_false_iff_ne.mpr h4
    show priorityLabel q = "Unknown"
    simp [priorityLabel, priority_map, List.lookup, e1, e2, e3, e4]

/-- C8 witness: on the NaN-free dataset the visited order is ascending. -/
theorem zone_validator_amended_witness :
    (visitedPriorities zoneCleanDF).Pairwise (fun a b : ℚ => a ≤ b) :=
  (zone_validator_amended zoneCleanDF).1 (by decide)

end SSEWS
